import Mathlib

/-!
Verification development for the ranking engine of `src/app.py`
(CFB-Stat-Game).  The engine consumes a flat event table
(player, week, score) together with the ordered list of valid week
labels (`WEEK_ORDER` in the source) and produces

* a season standings table (`standings`): per-player season totals,
  sorted ascending, sequential ranks, and points from first, and
* a weekly rank trajectory (`rankTrajectory`): per-week competition
  ranks over forward-filled cumulative scores with an activity cutoff.

The definitions below are a shallow embedding of the pandas pipeline at
`src/app.py` lines 125-180, translated operation by operation:

* `lookupCum`    — `info.groupby("Player")["Score"].cumsum()` followed by
                   `drop_duplicates(subset=["Player","Week"], keep="last")`
                   and the left merge onto the dense grid: the value merged
                   onto grid cell (p, w) is the running (insertion-order)
                   per-player total at the **last** event row of p in week w.
* `cumFF`        — the sort by (Player, Week-categorical) followed by
                   `groupby("Player")["CumulativeScore"].ffill()`.
* `lastPlayedIdx`— `last_played`: the max `WEEK_ORDER` index over a player's
                   events whose week label is valid; `none` models the
                   `ValueError` that `max([])` raises when no event of the
                   player has a valid week label.
* `cumAtWeek`    — the post-fill cutoff
                   `full_cum.loc[week_idx > LastPlayed] = NaN`.
* `weekRows` / `rankTrajectory` — `compute_weekly_ranks`, using pandas
                   `rank(method="min", ascending=True)`: a row's rank is the
                   1-based position of the first occurrence of its score in
                   the ascending sort of the week's scores.
* `standings`    — the Standings data frame: `groupby("Player").sum()`
                   (keys ascending), `sort_values("Score")`, sequential
                   ranks `index + 1`, and `Score - df.loc[0, "Score"]`;
                   `Except.error` models the `KeyError` that
                   `df.loc[0, "Score"]` raises on an empty frame.
-/

structure ScoreEvent where
  player : String
  week : String
  score : Int
  deriving DecidableEq

structure Standing where
  rank : Nat
  player : String
  totalScore : Int
  ptsFromFirst : Int
  deriving DecidableEq

structure RankRow where
  week : String
  player : String
  rank : Nat
  deriving DecidableEq

/-- The fixed week domain of the source (`WEEK_ORDER`): "Week 1" .. "Week 16"
followed by the terminal label "Bowls". -/
def WEEK_ORDER : List String :=
  ((List.range 16).map (fun i => "Week " ++ toString (i + 1))) ++ ["Bowls"]

/-- Sum of all scores of player `p`, across the whole season regardless of
week (`info.groupby("Player")["Score"].sum()` for one key). -/
def playerScoreSum (events : List ScoreEvent) (p : String) : Int :=
  ((events.filter (fun e => e.player = p)).map (fun e => e.score)).sum

/-- The distinct players appearing in the event table. -/
def uniquePlayers (events : List ScoreEvent) : List String :=
  (events.map (fun e => e.player)).dedup

/-- Lexicographic comparison of character lists by code point, as Python's
`sorted` compares strings. -/
def charListLe : List Char → List Char → Bool
  | [], _ => true
  | _ :: _, [] => false
  | a :: as, b :: bs =>
    if a = b then charListLe as bs else decide (a.toNat < b.toNat)

/-- String comparison by code-point lexicographic order. -/
def strLe (a b : String) : Bool :=
  charListLe a.data b.data

/-- The distinct players in ascending order (`sorted(info["Player"].unique())`
and the ascending group keys of pandas `groupby`). -/
def sortedPlayers (events : List ScoreEvent) : List String :=
  List.insertionSort (fun a b => strLe a b = true) (uniquePlayers events)

/-- Helper for `lookupCum`: walks the event rows in insertion order carrying
`acc`, the running total of `p`'s scores over the rows already passed, and
returns the running total at the last row of player `p` with week `w`
(`none` when no such row exists). -/
def lookupCumAux (p w : String) (acc : Int) : List ScoreEvent → Option Int
  | [] => none
  | e :: rest =>
    let acc2 := if e.player = p then acc + e.score else acc
    match lookupCumAux p w acc2 rest with
    | some v => some v
    | none => if e.player = p ∧ e.week = w then some acc2 else none

/-- The `CumulativeScore` merged onto grid cell (p, w): the per-player
insertion-order running total (`groupby("Player")["Score"].cumsum()`)
at the last event row of `p` in week `w`
(`drop_duplicates(subset=["Player","Week"], keep="last")` + left merge). -/
def lookupCum (events : List ScoreEvent) (p w : String) : Option Int :=
  lookupCumAux p w 0 events

/-- Forward-filled cumulative score of player `p` at week position `i` of
`dom` (`groupby("Player")["CumulativeScore"].ffill()` after sorting by
week-categorical order). -/
def cumFF (events : List ScoreEvent) (dom : List String) (p : String) : Nat → Option Int
  | 0 => lookupCum events p (dom.getD 0 "")
  | i + 1 =>
    match lookupCum events p (dom.getD (i + 1) "") with
    | some v => some v
    | none => cumFF events dom p i

/-- Maximum of a list of naturals, `none` on the empty list (Python's
`max` raises `ValueError` there). -/
def listMaxNat : List Nat → Option Nat
  | [] => none
  | a :: rest =>
    match listMaxNat rest with
    | none => some a
    | some b => some (max a b)

/-- The `dom` positions of player `p`'s events whose week label is valid
(the list comprehension inside `last_played`). -/
def validWeekIdxs (events : List ScoreEvent) (dom : List String) (p : String) : List Nat :=
  (events.filter (fun e => e.player = p ∧ e.week ∈ dom)).map (fun e => dom.indexOf e.week)

/-- `last_played[p]`: the last week position at which `p` recorded an event
with a valid week label; `none` models the `ValueError` of `max([])`. -/
def lastPlayedIdx (events : List ScoreEvent) (dom : List String) (p : String) : Option Nat :=
  listMaxNat (validWeekIdxs events dom p)

/-- Cumulative score of `p` at week position `i` after the activity cutoff
(`full_cum.loc[full_cum["week_idx"] > full_cum["LastPlayed"],
"CumulativeScore"] = NaN`), applied after forward-filling. -/
def cumAtWeek (events : List ScoreEvent) (dom : List String) (p : String) (i : Nat) :
    Option Int :=
  match lastPlayedIdx events dom p with
  | none => none
  | some lastIdx => if lastIdx < i then none else cumFF events dom p i

/-- The players with a defined cumulative score at week position `i`
(`week_df[week_df["CumulativeScore"].notna()]`), in ascending player order
as in the sorted grid. -/
def activeAtWeek (events : List ScoreEvent) (dom : List String) (i : Nat) : List String :=
  (sortedPlayers events).filter (fun p => (cumAtWeek events dom p i).isSome)

/-- The defined cumulative scores of week position `i`, one per active
player. -/
def weekScores (events : List ScoreEvent) (dom : List String) (i : Nat) : List Int :=
  (activeAtWeek events dom i).filterMap (fun p => cumAtWeek events dom p i)

/-- pandas `rank(method="min", ascending=True)`: the rank of value `x` is the
1-based position of the first occurrence of `x` in the ascending sort of the
column. -/
def rankMin (scores : List Int) (x : Int) : Nat :=
  (List.insertionSort (fun a b => a ≤ b) scores).indexOf x + 1

/-- One week's block of `compute_weekly_ranks`: the rank rows of week
position `i`. -/
def weekRows (events : List ScoreEvent) (dom : List String) (i : Nat) : List RankRow :=
  (activeAtWeek events dom i).filterMap (fun p =>
    match cumAtWeek events dom p i with
    | none => none
    | some c => some { week := dom.getD i "", player := p,
                       rank := rankMin (weekScores events dom i) c })

/-- `compute_weekly_ranks` over the whole week domain, together with the
`last_played` computation that precedes it: if some player has no event
with a valid week label, `max([])` raises, modelled as `Except.error`. -/
def rankTrajectory (events : List ScoreEvent) (dom : List String) :
    Except String (List RankRow) :=
  if (uniquePlayers events).all (fun p => (lastPlayedIdx events dom p).isSome) then
    Except.ok (((List.range dom.length).map (fun i => weekRows events dom i)).flatten)
  else
    Except.error ("ValueError: max() arg is an empty sequence")

/-- Season totals in ascending player order (pandas `groupby` sorts its
keys). -/
def playerTotals (events : List ScoreEvent) : List (String × Int) :=
  (sortedPlayers events).map (fun p => (p, playerScoreSum events p))

/-- `sort_values("Score", ascending=True)` on the totals, modelled as a
stable ascending sort by score. -/
def sortedTotals (events : List ScoreEvent) : List (String × Int) :=
  List.insertionSort (fun a b => a.2 ≤ b.2) (playerTotals events)

/-- The Standings table: sequential ranks `index + 1` and
`Score - df.loc[0, "Score"]`; on an empty frame `df.loc[0, "Score"]`
raises `KeyError`, modelled as `Except.error`. -/
def standings (events : List ScoreEvent) : Except String (List Standing) :=
  match sortedTotals events with
  | [] => Except.error ("KeyError: 0")
  | (p, s) :: rest =>
    Except.ok (((p, s) :: rest).enum.map (fun pr =>
      { rank := pr.1 + 1, player := pr.2.1, totalScore := pr.2.2,
        ptsFromFirst := pr.2.2 - s }))

/-- Cumulative score as the specification words it (spec §4 Stage 3): the
running sum of the player's raw per-event scores taken in `WeekDomain`
order, all events of the same week summed together — i.e. the sum of the
player's scores over valid weeks at positions `≤ i`.  Used to compare the
source's insertion-order accumulation against the spec's week-order
accumulation. -/
def specCumulative (events : List ScoreEvent) (dom : List String) (p : String) (i : Nat) :
    Int :=
  ((events.filter (fun e => e.player = p ∧ e.week ∈ dom ∧ dom.indexOf e.week ≤ i)).map
    (fun e => e.score)).sum

example : lookupCum [⟨"A", "Week 1", 10⟩, ⟨"A", "Week 3", 5⟩] "A" "Week 3" = some 15 := by
  decide

example :
    cumAtWeek [⟨"A", "Week 1", 10⟩, ⟨"A", "Week 3", 5⟩]
      ["Week 1", "Week 2", "Week 3", "Week 4"] "A" 1 = some 10 := by
  decide

example :
    cumAtWeek [⟨"A", "Week 1", 10⟩, ⟨"A", "Week 3", 5⟩]
      ["Week 1", "Week 2", "Week 3", "Week 4"] "A" 3 = none := by
  decide

example :
    rankTrajectory [⟨"B", "Week 1", 20⟩, ⟨"A", "Week 1", 10⟩, ⟨"A", "Week 2", 10⟩]
      ["Week 1", "Week 2"] =
    Except.ok [⟨"Week 1", "A", 1⟩, ⟨"Week 1", "B", 2⟩, ⟨"Week 2", "A", 1⟩] := by
  rfl

example :
    standings [⟨"B", "Week 1", 20⟩, ⟨"A", "Week 1", 10⟩, ⟨"A", "Week 2", 10⟩] =
    Except.ok [⟨1, "A", 20, 0⟩, ⟨2, "B", 20, 0⟩] := by
  rfl

/-! ### Concrete inputs used by the examples of the spec and by witnesses -/

/-- The spec's forward-fill example: A scores in Week 1 and Week 3 only. -/
def evGap : List ScoreEvent := [⟨"A", "Week 1", 10⟩, ⟨"A", "Week 3", 5⟩]

/-- The spec's four-week domain. -/
def domFour : List String := ["Week 1", "Week 2", "Week 3", "Week 4"]

/-- A's events supplied in reverse week order. -/
def evRevOrder : List ScoreEvent := [⟨"A", "Week 2", 5⟩, ⟨"A", "Week 1", 10⟩]

/-- A two-week domain. -/
def domTwo : List String := ["Week 1", "Week 2"]

/-- One valid event, preceded by an event whose week label is not in the
domain. -/
def evInvalid : List ScoreEvent := [⟨"A", "Bad Week", 100⟩, ⟨"A", "Week 1", 10⟩]

/-- A one-week domain. -/
def domOne : List String := ["Week 1"]

/-- A week with a two-way tie for the lowest score and a third player. -/
def evTie : List ScoreEvent :=
  [⟨"A", "Week 1", 10⟩, ⟨"B", "Week 1", 10⟩, ⟨"C", "Week 1", 20⟩]

/-- Events of a player whose only week label is invalid. -/
def evAllInvalid : List ScoreEvent := [⟨"A", "Week 1", 10⟩, ⟨"B", "Nope", 3⟩]

/-! ### C4 — forward-fill with activity cutoff, concrete -/

/-- C4: with events `[{A,Week1,10},{A,Week3,5}]` and
`WeekDomain = [Week1,Week2,Week3,Week4]`, A's cumulative score is 10 at
Week1, 10 at Week2 (carried over the gap), 15 at Week3; the forward-fill
itself still carries 15 into Week4, but `lastActiveWeek = Week3` (index 2)
is smaller than Week4's index, so the post-fill cutoff makes the Week4
value undefined and no stale value survives. -/
theorem forwardFillExample :
    cumAtWeek evGap domFour "A" 0 = some 10 ∧
    cumAtWeek evGap domFour "A" 1 = some 10 ∧
    cumAtWeek evGap domFour "A" 2 = some 15 ∧
    lastPlayedIdx evGap domFour "A" = some 2 ∧
    cumFF evGap domFour "A" 3 = some 15 ∧
    cumAtWeek evGap domFour "A" 3 = none := by
  decide

/-! ### C2 — counterexample: accumulation is in insertion order -/

/-- C2 counterexample: when A's two events arrive in reverse week order,
the source's insertion-order `cumsum` puts 15 (the total of both events)
on Week 1, while the claimed WeekDomain-ordered running sum of A's scores
up to Week 1 is 10.  The claim "this holds for every input event sequence
regardless of the order in which the events are supplied" is false. -/
theorem cumulativeInsertionOrderCex :
    cumAtWeek evRevOrder domTwo "A" 0 = some 15 ∧
    specCumulative evRevOrder domTwo "A" 0 = 10 ∧
    cumAtWeek evRevOrder domTwo "A" 0 ≠
      some (specCumulative evRevOrder domTwo "A" 0) := by
  decide

/-! ### C5 — counterexample: invalid week labels are silent and corrupting -/

/-- C5 counterexample: with an event whose week label "Bad Week" is not in
the domain, the computation reports no error (it returns a trajectory), and
the invalid event's score 100 leaks into A's cumulative score at Week 1
(110 instead of the valid-events-only sum 10): the invalid event is
silently dropped from the grid yet corrupts the computed values. -/
theorem invalidWeekSilentCex :
    rankTrajectory evInvalid domOne = Except.ok [⟨"Week 1", "A", 1⟩] ∧
    cumAtWeek evInvalid domOne "A" 0 = some 110 ∧
    specCumulative evInvalid domOne "A" 0 = 10 := by
  exact ⟨rfl, by decide, by decide⟩

/-! ### C6 — empty input: trajectory is empty, standings raises -/

/-- C6 counterexample: on the empty event sequence `computeStandings` does
not succeed — `df.loc[0, "Score"]` raises `KeyError` on the empty frame —
so the claim that both computations succeed is false. -/
theorem emptyStandingsErrorCex :
    ¬ ∃ l, standings ([] : List ScoreEvent) = Except.ok l := by
  intro h
  obtain ⟨l, hl⟩ := h
  rw [show standings ([] : List ScoreEvent) = Except.error ("KeyError: 0") from rfl] at hl
  exact Except.noConfusion hl

/-- Helper for `emptyInputBehavior`: with no events every week block of the
trajectory is empty. -/
theorem flattenWeekRowsNil :
    ∀ (l : List Nat) (dom : List String),
      (l.map (fun i => weekRows [] dom i)).flatten = []
  | [], _ => rfl
  | i :: rest, dom => by
    rw [List.map_cons, List.flatten_cons, flattenWeekRowsNil rest dom]
    rfl

/-- C6 amended: on the empty event sequence the weekly trajectory succeeds
and is empty for every week domain, but the standings computation fails
with the `KeyError` of `df.loc[0, "Score"]` on an empty frame instead of
returning an empty table. -/
theorem emptyInputBehavior :
    (∀ dom : List String, rankTrajectory [] dom = Except.ok []) ∧
    standings ([] : List ScoreEvent) = Except.error ("KeyError: 0") := by
  constructor
  · intro dom
    have h : rankTrajectory [] dom =
        Except.ok (((List.range dom.length).map (fun i => weekRows [] dom i)).flatten) := rfl
    rw [h, flattenWeekRowsNil]
  · rfl

/-! ### C10 — a player with only invalid week labels crashes the trajectory -/

/-- C10: if some player has at least one event and all of that player's
events carry week labels outside the domain, the trajectory computation
fails with the `ValueError` of `max([])` in `last_played` — the player is
not excluded and no structured per-record error is produced. -/
theorem allInvalidWeeksError (events : List ScoreEvent) (dom : List String) (p : String)
    (hp : ∃ e ∈ events, e.player = p)
    (hinv : ∀ e ∈ events, e.player = p → e.week ∉ dom) :
    rankTrajectory events dom =
      Except.error ("ValueError: max() arg is an empty sequence") := by
  have hpmem : p ∈ uniquePlayers events := by
    obtain ⟨e, he, hep⟩ := hp
    unfold uniquePlayers
    rw [List.mem_dedup, List.mem_map]
    exact ⟨e, he, hep⟩
  have hnone : lastPlayedIdx events dom p = none := by
    unfold lastPlayedIdx validWeekIdxs
    have hfil : events.filter (fun e => decide (e.player = p ∧ e.week ∈ dom)) = [] := by
      rw [List.filter_eq_nil_iff]
      intro e he
      simp only [decide_eq_true_eq, not_and]
      exact fun hpe => hinv e he hpe
    rw [hfil]
    rfl
  unfold rankTrajectory
  rw [if_neg]
  intro hall
  rw [List.all_eq_true] at hall
  have hps := hall p hpmem
  rw [hnone] at hps
  simp at hps

/-- Witness for `allInvalidWeeksError`: player B's only event has the week
label "Nope", which is not in the one-week domain, so the whole batch
fails. -/
theorem allInvalidWeeksErrorWitness :
    rankTrajectory evAllInvalid domOne =
      Except.error ("ValueError: max() arg is an empty sequence") :=
  allInvalidWeeksError evAllInvalid domOne "B"
    ⟨⟨"B", "Nope", 3⟩, by decide, rfl⟩
    (by decide)

/-! ### Competition-rank characterization (pandas `rank(method="min")`) -/

/-- In an ascending-sorted list the first position of a member equals the
number of strictly smaller entries. -/
theorem sorted_indexOf_eq_countP :
    ∀ (l : List Int), l.Sorted (fun a b => a ≤ b) → ∀ x ∈ l,
      List.indexOf x l = l.countP (fun a => decide (a < x))
  | [], _, x, hx => absurd hx (List.not_mem_nil x)
  | a :: t, hs, x, hx => by
    by_cases hax : a = x
    · subst hax
      rw [List.indexOf_cons_self]
      have hz : (a :: t).countP (fun b => decide (b < a)) = 0 := by
        rw [List.countP_eq_zero]
        intro b hb
        simp only [decide_eq_true_eq, not_lt]
        rcases List.mem_cons.mp hb with rfl | hb
        · exact le_refl b
        · exact List.rel_of_sorted_cons hs b hb
      rw [hz]
    · have hxt : x ∈ t := by
        rcases List.mem_cons.mp hx with rfl | h
        · exact absurd rfl hax
        · exact h
      have halt : a < x := lt_of_le_of_ne (List.rel_of_sorted_cons hs x hxt) hax
      rw [List.indexOf_cons_ne _ hax, List.countP_cons_of_pos _ _ (by simpa using halt),
        sorted_indexOf_eq_countP t hs.of_cons x hxt]

/-- pandas min-rank of a member value is one plus the number of strictly
smaller entries of the column. -/
theorem rankMin_eq (scores : List Int) (x : Int) (hx : x ∈ scores) :
    rankMin scores x = 1 + scores.countP (fun a => decide (a < x)) := by
  unfold rankMin
  have hperm := List.perm_insertionSort (fun a b : Int => a ≤ b) scores
  have hsorted := List.sorted_insertionSort (fun a b : Int => a ≤ b) scores
  have hmem : x ∈ List.insertionSort (fun a b : Int => a ≤ b) scores :=
    (List.mem_insertionSort _).mpr hx
  rw [sorted_indexOf_eq_countP _ hsorted x hmem, hperm.countP_eq]
  omega

/-- Strictly larger member values have strictly more entries below them. -/
theorem countP_lt_of_mem_lt (l : List Int) (x y : Int) (hx : x ∈ l) (hxy : x < y) :
    l.countP (fun a => decide (a < x)) < l.countP (fun a => decide (a < y)) := by
  have hperm := List.perm_cons_erase hx
  rw [hperm.countP_eq (fun a => decide (a < x)), hperm.countP_eq (fun a => decide (a < y))]
  rw [List.countP_cons_of_neg _ _ (by simp), List.countP_cons_of_pos _ _ (by simpa using hxy)]
  have hmono : (l.erase x).countP (fun a => decide (a < x)) ≤
      (l.erase x).countP (fun a => decide (a < y)) := by
    refine List.countP_mono_left (fun b _ hb => ?_)
    simp only [decide_eq_true_eq] at hb ⊢
    exact lt_trans hb hxy
  omega

/-- Membership in a week's rank block, unfolded. -/
theorem mem_weekRows (events : List ScoreEvent) (dom : List String) (i : Nat) (r : RankRow) :
    r ∈ weekRows events dom i ↔
      ∃ c, r.player ∈ activeAtWeek events dom i ∧
        cumAtWeek events dom r.player i = some c ∧
        r.week = dom.getD i "" ∧
        r.rank = rankMin (weekScores events dom i) c := by
  unfold weekRows
  rw [List.mem_filterMap]
  constructor
  · rintro ⟨p, hp, hf⟩
    cases hc : cumAtWeek events dom p i with
    | none => rw [hc] at hf; exact absurd hf (by simp)
    | some c =>
      rw [hc] at hf
      simp only [Option.some.injEq] at hf
      subst hf
      exact ⟨c, hp, hc, rfl, rfl⟩
  · rintro ⟨c, hp, hc, hw, hr⟩
    refine ⟨r.player, hp, ?_⟩
    rw [hc]
    obtain ⟨rw', rp, rr⟩ := r
    simp only at hw hr
    simp [hw, hr]

/-- An active player's defined cumulative score is one of the week's score
column entries. -/
theorem cum_mem_weekScores (events : List ScoreEvent) (dom : List String) (i : Nat)
    (p : String) (c : Int) (hp : p ∈ activeAtWeek events dom i)
    (hc : cumAtWeek events dom p i = some c) : c ∈ weekScores events dom i :=
  List.mem_filterMap.mpr ⟨p, hp, hc⟩

/-- Every rank row's rank equals one plus the number of strictly smaller
entries in its week's score column. -/
theorem weekRows_rank_eq (events : List ScoreEvent) (dom : List String) (i : Nat)
    (r : RankRow) (hr : r ∈ weekRows events dom i) (c : Int)
    (hc : cumAtWeek events dom r.player i = some c) :
    r.rank = 1 + (weekScores events dom i).countP (fun a => decide (a < c)) := by
  obtain ⟨c', hp, hc', hw, hrank⟩ := (mem_weekRows events dom i r).mp hr
  rw [hc] at hc'
  injection hc' with hcc
  subst hcc
  rw [hrank]
  exact rankMin_eq _ _ (cum_mem_weekScores events dom i r.player c hp hc)

/-! ### C1 — minimum-rank (competition) tie semantics -/

/-- C1: per-week ranking uses minimum-rank (competition) tie semantics.
Every rank row's rank equals one plus the number of active players with a
strictly smaller cumulative score; all players tying for the lowest score
of the week receive rank 1; tied players share a rank; and a player whose
score sits directly above the tied lowest group of size k receives rank
k + 1 (more generally, the count of all players ranked below plus one). -/
theorem weeklyRankMinTieLaw (events : List ScoreEvent) (dom : List String) (i : Nat) :
    (∀ r ∈ weekRows events dom i, ∀ c, cumAtWeek events dom r.player i = some c →
      r.rank = 1 + (weekScores events dom i).countP (fun a => decide (a < c))) ∧
    (∀ r ∈ weekRows events dom i, ∀ c, cumAtWeek events dom r.player i = some c →
      (∀ a ∈ weekScores events dom i, c ≤ a) → r.rank = 1) ∧
    (∀ r s : RankRow, r ∈ weekRows events dom i → s ∈ weekRows events dom i →
      ∀ cr cs, cumAtWeek events dom r.player i = some cr →
        cumAtWeek events dom s.player i = some cs → cr = cs → r.rank = s.rank) ∧
    (∀ r ∈ weekRows events dom i, ∀ c m, cumAtWeek events dom r.player i = some c →
      (∀ a ∈ weekScores events dom i, m ≤ a) → m < c →
      (∀ a ∈ weekScores events dom i, a < c → a = m) →
      r.rank = (weekScores events dom i).countP (fun a => decide (a = m)) + 1) := by
  refine ⟨fun r hr c hc => weekRows_rank_eq events dom i r hr c hc, ?_, ?_, ?_⟩
  · intro r hr c hc hmin
    rw [weekRows_rank_eq events dom i r hr c hc]
    have hz : (weekScores events dom i).countP (fun a => decide (a < c)) = 0 := by
      rw [List.countP_eq_zero]
      intro a ha
      simp only [decide_eq_true_eq, not_lt]
      exact hmin a ha
    rw [hz]
  · intro r s hr hs cr cs hcr hcs hrs
    rw [weekRows_rank_eq events dom i r hr cr hcr,
      weekRows_rank_eq events dom i s hs cs hcs, hrs]
  · intro r hr c m hc hmin hmc htween
    rw [weekRows_rank_eq events dom i r hr c hc]
    have hcong : (weekScores events dom i).countP (fun a => decide (a < c)) =
        (weekScores events dom i).countP (fun a => decide (a = m)) := by
      refine List.countP_congr (fun a ha => ?_)
      simp only [decide_eq_true_eq]
      constructor
      · exact fun h => htween a ha h
      · rintro rfl
        exact hmc
    rw [hcong]
    omega

/-- Witness for `weeklyRankMinTieLaw`: with scores 10, 10, 20 in Week 1,
the two players at 10 tie for rank 1 and C (score 20, directly above the
tied group of size 2) receives rank 2 + 1 = 3. -/
theorem weeklyRankMinTieLawWitness :
    (⟨"Week 1", "C", 3⟩ : RankRow).rank =
      (weekScores evTie domOne 0).countP (fun a => decide (a = 10)) + 1 :=
  (weeklyRankMinTieLaw evTie domOne 0).2.2.2 ⟨"Week 1", "C", 3⟩ (by decide) 20 10
    (by decide) (by decide) (by decide) (by decide)

/-! ### C9 — rank monotonicity -/

/-- C9: within any week, a strictly smaller defined cumulative score gives
a rank that is at most — and in fact strictly below — the other player's
rank, and two rank rows share a rank only when their scores are equal. -/
theorem rankMonotonicity (events : List ScoreEvent) (dom : List String) (i : Nat) :
    ∀ r s : RankRow, r ∈ weekRows events dom i → s ∈ weekRows events dom i →
      ∀ cr cs, cumAtWeek events dom r.player i = some cr →
        cumAtWeek events dom s.player i = some cs →
        (cr < cs → r.rank ≤ s.rank ∧ r.rank < s.rank) ∧
        (r.rank = s.rank → cr = cs) := by
  intro r s hr hs cr cs hcr hcs
  have hrmem : cr ∈ weekScores events dom i := by
    obtain ⟨c', hp, hc', _, _⟩ := (mem_weekRows events dom i r).mp hr
    exact cum_mem_weekScores events dom i r.player cr hp hcr
  have hsmem : cs ∈ weekScores events dom i := by
    obtain ⟨c', hp, hc', _, _⟩ := (mem_weekRows events dom i s).mp hs
    exact cum_mem_weekScores events dom i s.player cs hp hcs
  have hlt : ∀ x y : Int, x ∈ weekScores events dom i → x < y →
      1 + (weekScores events dom i).countP (fun a => decide (a < x)) <
      1 + (weekScores events dom i).countP (fun a => decide (a < y)) := by
    intro x y hx hxy
    have := countP_lt_of_mem_lt (weekScores events dom i) x y hx hxy
    omega
  constructor
  · intro hcrs
    have h := hlt cr cs hrmem hcrs
    rw [← weekRows_rank_eq events dom i r hr cr hcr,
      ← weekRows_rank_eq events dom i s hs cs hcs] at h
    exact ⟨le_of_lt h, h⟩
  · intro heq
    rcases lt_trichotomy cr cs with h | h | h
    · have := hlt cr cs hrmem h
      rw [← weekRows_rank_eq events dom i r hr cr hcr,
        ← weekRows_rank_eq events dom i s hs cs hcs] at this
      omega
    · exact h
    · have := hlt cs cr hsmem h
      rw [← weekRows_rank_eq events dom i r hr cr hcr,
        ← weekRows_rank_eq events dom i s hs cs hcs] at this
      omega

/-- Witness for `rankMonotonicity`: in Week 1 of `evTie`, A's score 10 is
below C's 20 and A's rank 1 is below C's rank 3. -/
theorem rankMonotonicityWitness :
    (⟨"Week 1", "A", 1⟩ : RankRow).rank ≤ (⟨"Week 1", "C", 3⟩ : RankRow).rank ∧
    (⟨"Week 1", "A", 1⟩ : RankRow).rank < (⟨"Week 1", "C", 3⟩ : RankRow).rank :=
  (rankMonotonicity evTie domOne 0 ⟨"Week 1", "A", 1⟩ ⟨"Week 1", "C", 3⟩
    (by decide) (by decide) 10 20 (by decide) (by decide)).1 (by decide)

/-! ### C3 — activity cutoff: no rows after a player's last active week -/

/-- C3: the rank trajectory contains no row for a player at any week whose
domain position exceeds the player's last active week — every trajectory
row of that player sits at a week position at most `lastPlayedIdx`, so the
player is simply absent from later weeks' snapshots. -/
theorem activityCutoffNoRows (events : List ScoreEvent) (dom : List String) (p : String)
    (L : Nat) (rows : List RankRow)
    (hN : dom.Nodup)
    (hok : rankTrajectory events dom = Except.ok rows)
    (hL : lastPlayedIdx events dom p = some L) :
    ∀ r ∈ rows, r.player = p → List.indexOf r.week dom ≤ L := by
  unfold rankTrajectory at hok
  by_cases hall : (uniquePlayers events).all
      (fun q => (lastPlayedIdx events dom q).isSome) = true
  · rw [if_pos hall] at hok
    simp only [Except.ok.injEq] at hok
    subst hok
    intro r hr hrp
    rw [List.mem_flatten] at hr
    obtain ⟨block, hblock, hrb⟩ := hr
    rw [List.mem_map] at hblock
    obtain ⟨i, hi, rfl⟩ := hblock
    rw [List.mem_range] at hi
    obtain ⟨c, hpmem, hc, hw, _⟩ := (mem_weekRows events dom i r).mp hrb
    have hidx : List.indexOf r.week dom = i := by
      rw [hw, List.getD_eq_getElem dom "" hi]
      exact List.indexOf_getElem hN i hi
    rw [hidx]
    rw [hrp] at hc
    unfold cumAtWeek at hc
    rw [hL] at hc
    have hc2 : (if L < i then (none : Option Int) else cumFF events dom p i) = some c := hc
    by_cases hLi : L < i
    · rw [if_pos hLi] at hc2
      exact absurd hc2 (by simp)
    · omega
  · rw [if_neg hall] at hok
    exact absurd hok (by simp)

/-- Witness for `activityCutoffNoRows`: on the spec's example the whole
trajectory is the three rows at Weeks 1-3 (there is no (A, Week 4) row),
and each row's week position is at most A's last active week, 2. -/
theorem activityCutoffNoRowsWitness :
    List.indexOf (⟨"Week 3", "A", 1⟩ : RankRow).week domFour ≤ 2 :=
  activityCutoffNoRows evGap domFour "A" 2
    [⟨"Week 1", "A", 1⟩, ⟨"Week 2", "A", 1⟩, ⟨"Week 3", "A", 1⟩]
    (by decide) rfl (by decide) ⟨"Week 3", "A", 1⟩ (by decide) rfl

/-! ### C5 — invalid week labels: silently excluded, never reported -/

/-- The maximum of a non-empty list of naturals exists. -/
theorem listMaxNat_ne_none : ∀ (l : List Nat), l ≠ [] → listMaxNat l ≠ none
  | [], h => absurd rfl h
  | a :: rest, _ => by
    unfold listMaxNat
    cases listMaxNat rest <;> simp

/-- C5 amended: an event whose week label is outside the domain is silently
excluded from the weekly grid — no trajectory row ever carries a week label
outside the domain — and no error is reported as long as every player has
at least one valid-week event (the computation then returns a trajectory);
the invalid event's score nevertheless leaks into the insertion-order
cumulative sums, as `invalidWeekSilentCex` shows. -/
theorem invalidWeekRowsExcluded (events : List ScoreEvent) (dom : List String) :
    (∀ rows, rankTrajectory events dom = Except.ok rows → ∀ r ∈ rows, r.week ∈ dom) ∧
    ((∀ p ∈ uniquePlayers events, ∃ e ∈ events, e.player = p ∧ e.week ∈ dom) →
      ∃ rows, rankTrajectory events dom = Except.ok rows) := by
  constructor
  · intro rows hok r hr
    unfold rankTrajectory at hok
    by_cases hall : (uniquePlayers events).all
        (fun q => (lastPlayedIdx events dom q).isSome) = true
    · rw [if_pos hall] at hok
      simp only [Except.ok.injEq] at hok
      subst hok
      rw [List.mem_flatten] at hr
      obtain ⟨block, hblock, hrb⟩ := hr
      rw [List.mem_map] at hblock
      obtain ⟨i, hi, rfl⟩ := hblock
      rw [List.mem_range] at hi
      obtain ⟨c, hpmem, hc, hw, _⟩ := (mem_weekRows events dom i r).mp hrb
      rw [hw, List.getD_eq_getElem dom "" hi]
      exact List.getElem_mem hi
    · rw [if_neg hall] at hok
      exact absurd hok (by simp)
  · intro hval
    unfold rankTrajectory
    rw [if_pos]
    · exact ⟨_, rfl⟩
    · rw [List.all_eq_true]
      intro p hp
      obtain ⟨e, he, hep, hwd⟩ := hval p hp
      have hfil : e ∈ events.filter (fun x => decide (x.player = p ∧ x.week ∈ dom)) :=
        List.mem_filter.mpr ⟨he, by simp [hep, hwd]⟩
      have hmem : dom.indexOf e.week ∈ validWeekIdxs events dom p :=
        List.mem_map_of_mem _ hfil
      have hne : validWeekIdxs events dom p ≠ [] := List.ne_nil_of_mem hmem
      have hnn := listMaxNat_ne_none _ hne
      unfold lastPlayedIdx
      cases hcase : listMaxNat (validWeekIdxs events dom p) with
      | none => exact absurd hcase hnn
      | some v => simp

/-- Witness for `invalidWeekRowsExcluded`: with the invalid-week input the
computation still returns a trajectory, and its single row's week label is
the valid "Week 1". -/
theorem invalidWeekRowsExcludedWitness :
    (⟨"Week 1", "A", 1⟩ : RankRow).week ∈ domOne :=
  (invalidWeekRowsExcluded evInvalid domOne).1 [⟨"Week 1", "A", 1⟩] rfl
    ⟨"Week 1", "A", 1⟩ (by decide)

/-! ### Standings: structure of the output table (C7, C8) -/

instance : IsTotal (String × Int) (fun a b => a.2 ≤ b.2) :=
  ⟨fun a b => le_total a.2 b.2⟩

instance : IsTrans (String × Int) (fun a b => a.2 ≤ b.2) :=
  ⟨fun _ _ _ hab hbc => le_trans hab hbc⟩

/-- The second component of an enumerated entry is a member of the original
list. -/
theorem snd_mem_of_mem_enumFrom {α : Type} {y : Nat × α} {n : Nat} {l : List α}
    (h : y ∈ l.enumFrom n) : y.2 ∈ l := by
  obtain ⟨i, x⟩ := y
  obtain ⟨h1, h2, h3⟩ := List.mem_enumFrom h
  have hb : i - n < l.length := by omega
  show x ∈ l
  rw [h3]
  exact List.getElem_mem hb

/-- Pairwise relations descend through enumeration. -/
theorem pairwise_enumFrom_snd {α : Type} (R : α → α → Prop) :
    ∀ (l : List α) (n : Nat), List.Pairwise R l →
      List.Pairwise (fun a b : Nat × α => R a.2 b.2) (l.enumFrom n)
  | [], _, _ => List.Pairwise.nil
  | a :: t, n, h => by
    rw [List.enumFrom_cons]
    refine List.Pairwise.cons ?_ (pairwise_enumFrom_snd R t (n + 1) h.of_cons)
    intro y hy
    exact (List.pairwise_cons.mp h).1 y.2 (snd_mem_of_mem_enumFrom hy)

/-- Structure of a successful standings computation: the sorted totals are
non-empty and each row is built from its position and its totals entry. -/
theorem standings_ok_shape (events : List ScoreEvent) (rows : List Standing)
    (h : standings events = Except.ok rows) :
    ∃ p s tl, sortedTotals events = (p, s) :: tl ∧
      rows = ((p, s) :: tl).enum.map (fun pr =>
        { rank := pr.1 + 1, player := pr.2.1, totalScore := pr.2.2,
          ptsFromFirst := pr.2.2 - s }) := by
  unfold standings at h
  cases hst : sortedTotals events with
  | nil =>
    rw [hst] at h
    have h2 : Except.error ("KeyError: 0") = Except.ok rows := h
    exact absurd h2 (by simp)
  | cons hd tl =>
    obtain ⟨p, s⟩ := hd
    rw [hst] at h
    have h2 : Except.ok (((p, s) :: tl).enum.map (fun pr =>
        ({ rank := pr.1 + 1, player := pr.2.1, totalScore := pr.2.2,
           ptsFromFirst := pr.2.2 - s } : Standing))) = Except.ok rows := h
    simp only [Except.ok.injEq] at h2
    exact ⟨p, s, tl, rfl, h2.symm⟩

/-- The sorted totals list is sorted by total score. -/
theorem sortedTotals_sorted (events : List ScoreEvent) :
    List.Pairwise (fun a b : String × Int => a.2 ≤ b.2) (sortedTotals events) :=
  List.sorted_insertionSort (fun a b : String × Int => a.2 ≤ b.2) (playerTotals events)

/-- Every entry of the sorted totals pairs a player with that player's
season score sum. -/
theorem mem_sortedTotals (events : List ScoreEvent) (q : String × Int)
    (hq : q ∈ sortedTotals events) :
    q.2 = playerScoreSum events q.1 := by
  unfold sortedTotals at hq
  have hq2 : q ∈ playerTotals events :=
    (List.perm_insertionSort (fun a b : String × Int => a.2 ≤ b.2)
      (playerTotals events)).mem_iff.mp hq
  unfold playerTotals at hq2
  rw [List.mem_map] at hq2
  obtain ⟨p, hp, heq⟩ := hq2
  rw [← heq]

/-! ### C7 — season standings shape -/

/-- C7: in a successful standings table each row's rank is its position
plus one (sequential ranks 1..N, so the output is ordered by rank and tied
totals still get distinct consecutive ranks), total scores are
non-decreasing down the table (sorted ascending), each row's total is the
season-wide sum of that player's raw scores, and the rows' players are
exactly the distinct players of the input. -/
theorem standingsShapeLaw (events : List ScoreEvent) (rows : List Standing)
    (h : standings events = Except.ok rows) :
    (∀ j, ∀ hj : j < rows.length, (rows.get ⟨j, hj⟩).rank = j + 1) ∧
    List.Pairwise (fun a b : Standing => a.totalScore ≤ b.totalScore) rows ∧
    (∀ r ∈ rows, r.totalScore = playerScoreSum events r.player) ∧
    (rows.map (fun r => r.player)).Perm (sortedPlayers events) := by
  obtain ⟨p, s, tl, hst, hrows⟩ := standings_ok_shape events rows h
  subst hrows
  refine ⟨?_, ?_, ?_, ?_⟩
  · intro j hj
    rw [List.get_eq_getElem, List.getElem_map, List.getElem_enum]
  · rw [List.pairwise_map]
    have hs := sortedTotals_sorted events
    rw [hst] at hs
    exact pairwise_enumFrom_snd (fun a b : String × Int => a.2 ≤ b.2) ((p, s) :: tl) 0 hs
  · intro r hr
    rw [List.mem_map] at hr
    obtain ⟨pr, hpr, hfr⟩ := hr
    subst hfr
    have h2 : pr.2 ∈ (p, s) :: tl := snd_mem_of_mem_enumFrom hpr
    rw [← hst] at h2
    exact mem_sortedTotals events pr.2 h2
  · have h1 : (((p, s) :: tl).enum.map (fun pr =>
        ({ rank := pr.1 + 1, player := pr.2.1, totalScore := pr.2.2,
           ptsFromFirst := pr.2.2 - s } : Standing))).map (fun r => r.player) =
        ((p, s) :: tl).map Prod.fst := by
      rw [List.map_map]
      have hcomp : (((fun r => r.player) : Standing → String) ∘ (fun pr =>
          ({ rank := pr.1 + 1, player := pr.2.1, totalScore := pr.2.2,
             ptsFromFirst := pr.2.2 - s } : Standing))) =
          (Prod.fst ∘ (Prod.snd : Nat × (String × Int) → String × Int)) := rfl
      rw [hcomp, ← List.map_map, List.enum_map_snd]
    rw [h1, ← hst]
    have h3 : (List.map Prod.fst (sortedTotals events)).Perm
        (List.map Prod.fst (playerTotals events)) :=
      (List.perm_insertionSort (fun a b : String × Int => a.2 ≤ b.2)
        (playerTotals events)).map Prod.fst
    have h4 : List.map Prod.fst (playerTotals events) = sortedPlayers events := by
      unfold playerTotals
      rw [List.map_map]
      exact List.map_id _
    exact h4 ▸ h3

/-- Witness for `standingsShapeLaw`: on `evTie` the standings are
rank 1 A (10), rank 2 B (10) — the season-level tie gets distinct
sequential ranks — and rank 3 C whose total 20 is the sum of C's scores. -/
theorem standingsShapeLawWitness :
    (⟨3, "C", 20, 10⟩ : Standing).totalScore =
      playerScoreSum evTie (⟨3, "C", 20, 10⟩ : Standing).player :=
  (standingsShapeLaw evTie
    [⟨1, "A", 10, 0⟩, ⟨2, "B", 10, 0⟩, ⟨3, "C", 20, 10⟩] rfl).2.2.1
    ⟨3, "C", 20, 10⟩ (by decide)

/-! ### C8 — standings delta law -/

/-- C8: in a non-empty standings table the first row has rank 1 and delta
exactly 0, and every row's delta equals its total minus the first row's
total and is non-negative. -/
theorem standingsDeltaLaw (events : List ScoreEvent) (r0 : Standing)
    (rest : List Standing)
    (h : standings events = Except.ok (r0 :: rest)) :
    r0.rank = 1 ∧ r0.ptsFromFirst = 0 ∧
    (∀ r ∈ r0 :: rest,
      r.ptsFromFirst = r.totalScore - r0.totalScore ∧ 0 ≤ r.ptsFromFirst) := by
  obtain ⟨p, s, tl, hst, hrows⟩ := standings_ok_shape events (r0 :: rest) h
  have henum : ((p, s) :: tl).enum = (0, (p, s)) :: tl.enumFrom 1 := rfl
  rw [henum, List.map_cons] at hrows
  simp only [List.cons.injEq] at hrows
  obtain ⟨h0, h1⟩ := hrows
  have hs := sortedTotals_sorted events
  rw [hst] at hs
  have hmin : ∀ y ∈ tl, s ≤ y.2 := fun y hy => (List.pairwise_cons.mp hs).1 y hy
  refine ⟨by rw [h0], by rw [h0]; simp, ?_⟩
  intro r hr
  rcases List.mem_cons.mp hr with rfl | hr2
  · rw [h0]
    simp
  · rw [h1] at hr2
    rw [List.mem_map] at hr2
    obtain ⟨pr, hpr, hfr⟩ := hr2
    subst hfr
    have h2 : pr.2 ∈ tl := snd_mem_of_mem_enumFrom hpr
    have h3 : s ≤ pr.2.2 := hmin pr.2 h2
    rw [h0]
    constructor
    · rfl
    · simp only
      omega

/-- Witness for `standingsDeltaLaw`: on `evTie` the rank-1 row has delta
exactly 0. -/
theorem standingsDeltaLawWitness :
    (⟨1, "A", 10, 0⟩ : Standing).rank = 1 ∧
    (⟨1, "A", 10, 0⟩ : Standing).ptsFromFirst = 0 :=
  ⟨(standingsDeltaLaw evTie ⟨1, "A", 10, 0⟩
      [⟨2, "B", 10, 0⟩, ⟨3, "C", 20, 10⟩] rfl).1,
   (standingsDeltaLaw evTie ⟨1, "A", 10, 0⟩
      [⟨2, "B", 10, 0⟩, ⟨3, "C", 20, 10⟩] rfl).2.1⟩

/-! ### C2 — week-ordered accumulation holds only for week-sorted input -/

/-- If no row of `es` matches player `p` and week `w`, the merged lookup is
undefined. -/
theorem lookupCumAux_eq_none (p w : String) :
    ∀ (es : List ScoreEvent) (acc : Int),
      (∀ e ∈ es, ¬(e.player = p ∧ e.week = w)) →
      lookupCumAux p w acc es = none
  | [], _, _ => rfl
  | e :: rest, acc, h => by
    have hrec := lookupCumAux_eq_none p w rest
      (if e.player = p then acc + e.score else acc)
      (fun x hx => h x (List.mem_cons_of_mem e hx))
    simp only [lookupCumAux, hrec]
    rw [if_neg (h e (List.mem_cons_self e rest))]

/-- If `es` lists player `p`'s events in non-decreasing week position and
their week labels are valid, then the running total at `p`'s last row of
week `w` is `acc` plus the sum of `p`'s scores over weeks at positions up
to `w`'s. -/
theorem lookupCumAux_eq_sum (dom : List String) (p w : String) (hw : w ∈ dom) :
    ∀ (es : List ScoreEvent) (acc : Int),
      (∀ e ∈ es, e.player = p → e.week ∈ dom) →
      List.Pairwise (fun a b => a.player = p → b.player = p →
        dom.indexOf a.week ≤ dom.indexOf b.week) es →
      (∃ e ∈ es, e.player = p ∧ e.week = w) →
      lookupCumAux p w acc es =
        some (acc + ((es.filter (fun e =>
          decide (e.player = p ∧ dom.indexOf e.week ≤ dom.indexOf w))).map
            (fun e => e.score)).sum)
  | [], acc, _, _, hex => by simp at hex
  | e :: rest, acc, hval, hsort, hex => by
    obtain ⟨hhead, htail⟩ := List.pairwise_cons.mp hsort
    have hvalrest : ∀ x ∈ rest, x.player = p → x.week ∈ dom :=
      fun x hx => hval x (List.mem_cons_of_mem e hx)
    by_cases hep : e.player = p
    · by_cases hrest : ∃ x ∈ rest, x.player = p ∧ x.week = w
      · have IH := lookupCumAux_eq_sum dom p w hw rest (acc + e.score)
          hvalrest htail hrest
        obtain ⟨x, hxmem, hxp, hxw⟩ := hrest
        have hle : dom.indexOf e.week ≤ dom.indexOf w := by
          have hh := hhead x hxmem hep hxp
          rw [hxw] at hh
          exact hh
        have hfil : List.filter (fun e =>
            decide (e.player = p ∧ dom.indexOf e.week ≤ dom.indexOf w)) (e :: rest) =
            e :: List.filter (fun e =>
              decide (e.player = p ∧ dom.indexOf e.week ≤ dom.indexOf w)) rest :=
          List.filter_cons_of_pos (by simp [hep, hle])
        simp only [lookupCumAux, if_pos hep, IH, hfil, List.map_cons, List.sum_cons]
        congr 1
        ring
      · have hnone := lookupCumAux_eq_none p w rest (acc + e.score)
          (fun x hx hm => hrest ⟨x, hx, hm⟩)
        have hew : e.week = w := by
          rcases hex with ⟨y, hy, hyp, hyw⟩
          rcases List.mem_cons.mp hy with rfl | hymem
          · exact hyw
          · exact absurd ⟨y, hymem, hyp, hyw⟩ hrest
        have hfil : List.filter (fun e =>
            decide (e.player = p ∧ dom.indexOf e.week ≤ dom.indexOf w)) (e :: rest) =
            e :: List.filter (fun e =>
              decide (e.player = p ∧ dom.indexOf e.week ≤ dom.indexOf w)) rest :=
          List.filter_cons_of_pos (by simp [hep, hew])
        have hfilrest : List.filter (fun e =>
            decide (e.player = p ∧ dom.indexOf e.week ≤ dom.indexOf w)) rest = [] := by
          rw [List.filter_eq_nil_iff]
          intro x hx
          simp only [decide_eq_true_eq, not_and]
          intro hxp hxle
          have hge : dom.indexOf e.week ≤ dom.indexOf x.week := hhead x hx hep hxp
          rw [hew] at hge
          have hxe : dom.indexOf x.week = dom.indexOf w := le_antisymm hxle hge
          have hxdom : x.week ∈ dom := hvalrest x hx hxp
          have hxw : x.week = w := (List.indexOf_inj hxdom hw).mp hxe
          exact hrest ⟨x, hx, hxp, hxw⟩
        simp only [lookupCumAux, if_pos hep, hnone, hfil, hfilrest,
          List.map_cons, List.map_nil, List.sum_cons, List.sum_nil]
        rw [if_pos ⟨hep, hew⟩]
        congr 1
        ring
    · have hrest : ∃ x ∈ rest, x.player = p ∧ x.week = w := by
        rcases hex with ⟨y, hy, hyp, hyw⟩
        rcases List.mem_cons.mp hy with rfl | hymem
        · exact absurd hyp hep
        · exact ⟨y, hymem, hyp, hyw⟩
      have IH := lookupCumAux_eq_sum dom p w hw rest acc hvalrest htail hrest
      have hfil : List.filter (fun e =>
          decide (e.player = p ∧ dom.indexOf e.week ≤ dom.indexOf w)) (e :: rest) =
          List.filter (fun e =>
            decide (e.player = p ∧ dom.indexOf e.week ≤ dom.indexOf w)) rest :=
        List.filter_cons_of_neg (by simp [hep])
      simp only [lookupCumAux, if_neg hep, IH, hfil]

/-- Positions and labels agree: if `a` first occurs at position `i` of `l`
then the list's `i`-th entry is `a`. -/
theorem getD_eq_of_indexOf {l : List String} {a : String} {i : Nat}
    (hi : i < l.length) (hia : List.indexOf a l = i) : l.getD i "" = a := by
  have hmem : a ∈ l := List.indexOf_lt_length.mp (by rw [hia]; exact hi)
  have h1 : l[i]? = some a := by
    rw [← hia]
    exact List.getElem?_indexOf hmem
  have h3 : l[i]? = some (l[i]) := List.getElem?_eq_getElem hi
  rw [h1] at h3
  injection h3 with h4
  rw [List.getD_eq_getElem l "" hi, ← h4]

/-- `lookupCum` on week-sorted, valid input computes the week-ordered
running sum up to `w`. -/
theorem lookupCum_eq_sum (dom : List String) (p w : String) (hw : w ∈ dom)
    (events : List ScoreEvent)
    (hval : ∀ e ∈ events, e.player = p → e.week ∈ dom)
    (hsort : List.Pairwise (fun a b => a.player = p → b.player = p →
      dom.indexOf a.week ≤ dom.indexOf b.week) events)
    (hex : ∃ e ∈ events, e.player = p ∧ e.week = w) :
    lookupCum events p w =
      some (((events.filter (fun e =>
        decide (e.player = p ∧ dom.indexOf e.week ≤ dom.indexOf w))).map
          (fun e => e.score)).sum) := by
  unfold lookupCum
  rw [lookupCumAux_eq_sum dom p w hw events 0 hval hsort hex]
  congr 1
  exact zero_add _

/-- On week-sorted, valid input, the forward-filled cumulative score at
week position `i` is the week-ordered running sum over positions up to
`i`, provided the player has an event at or before `i`. -/
theorem cumFF_eq_sum (events : List ScoreEvent) (dom : List String) (p : String)
    (hN : dom.Nodup)
    (hval : ∀ e ∈ events, e.player = p → e.week ∈ dom)
    (hsort : List.Pairwise (fun a b => a.player = p → b.player = p →
      dom.indexOf a.week ≤ dom.indexOf b.week) events) :
    ∀ i, i < dom.length →
      (∃ e ∈ events, e.player = p ∧ dom.indexOf e.week ≤ i) →
      cumFF events dom p i =
        some (((events.filter (fun e =>
          decide (e.player = p ∧ dom.indexOf e.week ≤ i))).map (fun e => e.score)).sum)
  | 0, hi, hex => by
    obtain ⟨e, he, hep, hle⟩ := hex
    have hidx0 : dom.indexOf e.week = 0 := Nat.le_zero.mp hle
    have hedom : e.week ∈ dom := hval e he hep
    have hget : dom.getD 0 "" = e.week := getD_eq_of_indexOf hi hidx0
    show lookupCum events p (dom.getD 0 "") = _
    rw [hget, lookupCum_eq_sum dom p e.week hedom events hval hsort ⟨e, he, hep, rfl⟩,
      hidx0]
  | i + 1, hi, hex => by
    by_cases hmatch : ∃ e ∈ events, e.player = p ∧ e.week = dom.getD (i + 1) ""
    · have hw2 : dom.getD (i + 1) "" ∈ dom := by
        rw [List.getD_eq_getElem dom "" hi]
        exact List.getElem_mem hi
      have hlk := lookupCum_eq_sum dom p (dom.getD (i + 1) "") hw2 events hval hsort hmatch
      have hidx : dom.indexOf (dom.getD (i + 1) "") = i + 1 := by
        rw [List.getD_eq_getElem dom "" hi]
        exact List.indexOf_getElem hN (i + 1) hi
      rw [hidx] at hlk
      simp only [cumFF, hlk]
    · have hnone : lookupCum events p (dom.getD (i + 1) "") = none :=
        lookupCumAux_eq_none p (dom.getD (i + 1) "") events 0
          (fun x hx hm => hmatch ⟨x, hx, hm⟩)
      have hex2 : ∃ e ∈ events, e.player = p ∧ dom.indexOf e.week ≤ i := by
        obtain ⟨e, he, hep, hle⟩ := hex
        refine ⟨e, he, hep, ?_⟩
        by_cases hcase : dom.indexOf e.week = i + 1
        · exfalso
          have hew : e.week = dom.getD (i + 1) "" := (getD_eq_of_indexOf hi hcase).symm
          exact hmatch ⟨e, he, hep, hew⟩
        · omega
      have IH := cumFF_eq_sum events dom p hN hval hsort i (by omega) hex2
      have hfcong : events.filter (fun e =>
          decide (e.player = p ∧ dom.indexOf e.week ≤ i + 1)) =
          events.filter (fun e =>
            decide (e.player = p ∧ dom.indexOf e.week ≤ i)) := by
        refine List.filter_congr (fun x hx => ?_)
        refine decide_eq_decide.mpr ?_
        by_cases hxp : x.player = p
        · by_cases hcase : dom.indexOf x.week = i + 1
          · exfalso
            have hxw : x.week = dom.getD (i + 1) "" := (getD_eq_of_indexOf hi hcase).symm
            exact hmatch ⟨x, hx, hxp, hxw⟩
          · constructor
            · rintro ⟨h1, h2⟩
              exact ⟨h1, by omega⟩
            · rintro ⟨h1, h2⟩
              exact ⟨h1, by omega⟩
        · constructor
          · rintro ⟨h1, _⟩
            exact absurd h1 hxp
          · rintro ⟨h1, _⟩
            exact absurd h1 hxp
      simp only [cumFF, hnone, IH, hfcong]

/-- C2 amended: when each player's events are supplied in non-decreasing
WeekDomain order with valid week labels, the (forward-filled, cutoff)
cumulative score of that player at any covered week position equals the
running sum of the player's raw scores taken in WeekDomain order with
same-week events summed together (`specCumulative`).  For arbitrary
insertion orders the claim fails, see `cumulativeInsertionOrderCex`. -/
theorem cumulativeWeekOrderedOfSorted (events : List ScoreEvent) (dom : List String)
    (p : String) (i L : Nat)
    (hN : dom.Nodup)
    (hval : ∀ e ∈ events, e.player = p → e.week ∈ dom)
    (hsort : List.Pairwise (fun a b => a.player = p → b.player = p →
      dom.indexOf a.week ≤ dom.indexOf b.week) events)
    (hi : i < dom.length)
    (hex : ∃ e ∈ events, e.player = p ∧ dom.indexOf e.week ≤ i)
    (hL : lastPlayedIdx events dom p = some L)
    (hiL : i ≤ L) :
    cumAtWeek events dom p i = some (specCumulative events dom p i) := by
  unfold cumAtWeek
  rw [hL]
  have hnot : ¬ L < i := by omega
  show (if L < i then (none : Option Int) else cumFF events dom p i) = _
  rw [if_neg hnot, cumFF_eq_sum events dom p hN hval hsort i hi hex]
  unfold specCumulative
  congr 3
  refine (List.filter_congr (fun x hx => ?_)).symm
  refine decide_eq_decide.mpr ?_
  by_cases hxp : x.player = p
  · constructor
    · rintro ⟨h1, _, h3⟩
      exact ⟨h1, h3⟩
    · rintro ⟨h1, h3⟩
      exact ⟨h1, hval x hx hxp, h3⟩
  · constructor
    · rintro ⟨h1, _⟩
      exact absurd h1 hxp
    · rintro ⟨h1, _⟩
      exact absurd h1 hxp

/-- Witness for `cumulativeWeekOrderedOfSorted`: on the week-sorted input
`evGap` the cumulative at Week 2 (position 1) equals the week-ordered
running sum of A's scores up to Week 2 (namely 10). -/
theorem cumulativeWeekOrderedOfSortedWitness :
    cumAtWeek evGap domFour "A" 1 = some (specCumulative evGap domFour "A" 1) :=
  cumulativeWeekOrderedOfSorted evGap domFour "A" 1 2 (by decide) (by decide)
    (by decide) (by decide) (by decide) (by decide) (by decide)
